import Mathlib

/-!
# Verification of the Local-RAG-Chatbot ingestion/chunking pipeline and agent loop

Shallow embedding of the core of the repository:

* `src/injection.py` — token estimator, text normalizer, sentence splitter,
  sentence chunker with overlap, deterministic identifiers, the dedup/upsert
  protocol of `inject_dataset`, and the PDF extraction fallback of
  `pdf_to_chunks_async`;
* `src/retrieval.py` — the forgiving ReAct output parse method with its
  process-wide failure memory.

Python strings are modelled as Lean `String`/`List Char`; Python machine
integers as `Nat`/`Int`; functions that can raise are given explicit
`Option`-valued collaborators or oracle parameters.  All definitions are
executable and structurally recursive (fuel is used where the Python loop
skips ahead by a computed amount), so concrete runs reduce by `decide`.
-/

/-! ## Basic Python string helpers -/

/-- Python's notion of whitespace for `str.split()` / `str.strip()`
(restricted to the ASCII range, which is all the repository feeds it). -/
def pyIsSpace (c : Char) : Bool :=
  c == ' ' || c == '\t' || c == '\n' || c == '\r' || c == '\x0b' || c == '\x0c'

/-- Split a character list on runs of whitespace, dropping empty pieces:
the semantics of Python's `str.split()` with no separator.  The first
accumulator argument collects the current (reversed) word. -/
def pyWordsAux : List Char → List Char → List (List Char)
  | [], [] => []
  | [], w => [w.reverse]
  | c :: cs, w =>
    if pyIsSpace c then
      match w with
      | [] => pyWordsAux cs []
      | _ => w.reverse :: pyWordsAux cs []
    else pyWordsAux cs (c :: w)

/-- `text.split()` from Python (whitespace-delimited words). -/
def pySplitWs (s : String) : List String :=
  (pyWordsAux s.data []).map fun cs => ⟨cs⟩

/-- Number of whitespace-delimited words, `len(text.split())`. -/
def wordCount (s : String) : Nat := (pySplitWs s).length

/-- Trim characters satisfying `p` from both ends of a list. -/
def trimBy (p : Char → Bool) (cs : List Char) : List Char :=
  ((cs.dropWhile p).reverse.dropWhile p).reverse

/-- Python `str.strip()`. -/
def pyStrip (s : String) : String := ⟨trimBy pyIsSpace s.data⟩

/-- Python `str.strip('"')`. -/
def stripQuotes (s : String) : String := ⟨trimBy (fun c => c == '"') s.data⟩

/-- Substring test on character lists (Python's `sub in text`). -/
def containsSubAux (pat : List Char) : List Char → Bool
  | [] => pat.isEmpty
  | c :: cs => pat.isPrefixOf (c :: cs) || containsSubAux pat cs

/-- Python's `sub in text` for strings. -/
def containsSub (pat text : String) : Bool := containsSubAux pat.data text.data

/-- Fuel-driven worker for `text.split(sep)` (leftmost, non-overlapping
matches; the fuel is an upper bound on the scan length, enough because the
scan consumes at least one character per step). -/
def splitOnGo (sep : List Char) : Nat → List Char → List Char → List (List Char)
  | _, [], acc => [acc.reverse]
  | 0, cs, acc => [acc.reverse ++ cs]
  | fuel + 1, c :: cs, acc =>
    if sep.isPrefixOf (c :: cs) then
      acc.reverse :: splitOnGo sep fuel (List.drop sep.length (c :: cs)) []
    else splitOnGo sep fuel cs (c :: acc)

/-- Python `text.split(sep)` for a non-empty separator. -/
def pySplitOn (sep text : String) : List String :=
  (splitOnGo sep.data text.data.length text.data []).map fun cs => ⟨cs⟩

/-- `line.split("\n")[0]`: the part of a string before its first newline. -/
def firstLine (s : String) : String := ⟨s.data.takeWhile fun c => c != '\n'⟩

/-! ## Token estimator (`_estimate_tokens`, `src/injection.py:33`)

`int(words * 1.3)` in Python truncates the IEEE-754 product toward zero; for
every word count in the program's reachable range this equals
`⌊13 * words / 10⌋`, which is how the estimate is embedded here. -/

/-- `_estimate_tokens`: approximate tokens as `~1.3 * words`, at least 1. -/
def estimate_tokens (text : String) : Nat :=
  max 1 (13 * wordCount text / 10)

/-! ## Text normalizer (`_normalize_page_text`, `src/injection.py:41`)

The five regex passes of the Python function are embedded as character-list
scanners with the exact leftmost, non-overlapping match-and-resume semantics
of `re.sub` (`\w` is modelled over the ASCII range the repository feeds it). -/

/-- Python's `\w` (ASCII range): letters, digits, underscore. -/
def isWordChar (c : Char) : Bool := c.isAlphanum || c == '_'

/-- `' '` or `'\t'`, the character class of the `[ \t]{2,}` pass. -/
def isST (c : Char) : Bool := c == ' ' || c == '\t'

/-- Pass 1: `t.replace("\r\n", "\n").replace("\r", "\n")` in one scan. -/
def convertCRLF : List Char → List Char
  | [] => []
  | [c] => if c = '\r' then ['\n'] else [c]
  | c :: c2 :: cs =>
    if c = '\r' then
      if c2 = '\n' then '\n' :: convertCRLF cs
      else '\n' :: convertCRLF (c2 :: cs)
    else c :: convertCRLF (c2 :: cs)

/-- Pass 2 worker: `re.sub(r"(\w)-\s*\n\s*(\w)", r"\1\2", t)`.  A match is a
word character, `'-'`, a maximal whitespace run containing at least one
newline, and a word character; the whole match is replaced by the two word
characters, and scanning resumes after it (so an adjacent overlapping
candidate is not merged — exactly `re.sub`'s behaviour).  `fuel` bounds the
scan length (each step consumes at least one character). -/
def dehyphGo : Nat → List Char → List Char
  | 0, cs => cs
  | _, [] => []
  | fuel + 1, c :: cs =>
    if isWordChar c then
      match cs with
      | c2 :: rest =>
        if c2 = '-' then
          if (rest.takeWhile pyIsSpace).contains '\n' then
            match rest.dropWhile pyIsSpace with
            | d :: tail =>
              if isWordChar d then c :: d :: dehyphGo fuel tail
              else c :: dehyphGo fuel cs
            | [] => c :: dehyphGo fuel cs
          else c :: dehyphGo fuel cs
        else c :: dehyphGo fuel cs
      | [] => c :: dehyphGo fuel cs
    else c :: dehyphGo fuel cs

/-- Pass 2: merge hyphenated line breaks. -/
def dehyphenate (cs : List Char) : List Char := dehyphGo cs.length cs

/-- Pass 3: `re.sub(r"(?<!\n)\n(?!\n)", " ", t)` — a newline whose original
neighbours are not newlines becomes a space.  `prev` is the previous
character of the original string (the lookbehind), the lookahead inspects
the untouched tail, and the replacement is the same length as the match, so
a single left-to-right scan is exact. -/
def singleNlGo (prev : Char) : List Char → List Char
  | [] => []
  | c :: cs =>
    if c == '\n' && prev != '\n' && (cs.head?.getD 'x') != '\n' then
      ' ' :: singleNlGo c cs
    else c :: singleNlGo c cs

/-- Pass 3 at the start of the string (no lookbehind character yet). -/
def singleNl (cs : List Char) : List Char := singleNlGo 'x' cs

/-- Pass 4: `re.sub(r"[ \t]{2,}", " ", t)`.  The flag records that we are
inside a run that was already collapsed to one emitted space. -/
def collapseGo : Bool → List Char → List Char
  | _, [] => []
  | inRun, c :: cs =>
    if isST c then
      if inRun then collapseGo true cs
      else
        match cs with
        | c2 :: _ =>
          if isST c2 then ' ' :: collapseGo true cs
          else c :: collapseGo false cs
        | [] => [c]
    else c :: collapseGo false cs

/-- Pass 4: collapse runs of two or more spaces/tabs to one space. -/
def collapseST (cs : List Char) : List Char := collapseGo false cs

/-- Pass 5: `re.sub(r"\n{3,}", "\n\n", t)`.  The flag records that we are
inside a run whose two replacement newlines were already emitted. -/
def collapseNlGo : Bool → List Char → List Char
  | _, [] => []
  | inRun, c :: cs =>
    if c == '\n' then
      if inRun then collapseNlGo true cs
      else
        match cs with
        | c2 :: c3 :: _ =>
          if c2 == '\n' && c3 == '\n' then '\n' :: '\n' :: collapseNlGo true cs
          else c :: collapseNlGo false cs
        | _ => c :: collapseNlGo false cs
    else c :: collapseNlGo false cs

/-- Pass 5: collapse runs of three or more newlines to a blank line. -/
def collapseNl (cs : List Char) : List Char := collapseNlGo false cs

/-- `_normalize_page_text`: normalize PDF-extracted text while keeping
paragraph boundaries (empty input yields empty output). -/
def normalize_page_text (raw : String) : String :=
  if raw = "" then ""
  else ⟨trimBy pyIsSpace (collapseNl (collapseST (singleNl (dehyphenate (convertCRLF raw.data)))))⟩

/-! ## Sentence splitter (`_split_sentences`, `src/injection.py:58`)

`re.split(r"(?<=[.!?])\s+(?=[A-Z0-9(\"])", text)`: the text is cut at every
maximal whitespace run that is preceded by `.`, `!` or `?` and followed by
an upper-case letter, digit, `(` or `"`; the run itself is discarded.  The
pieces are then stripped and empty pieces dropped. -/

/-- Sentence-ending punctuation (`[.!?]`). -/
def isSentEnd (c : Char) : Bool := c == '.' || c == '!' || c == '?'

/-- Characters that may start a sentence (`[A-Z0-9("]`, ASCII). -/
def isSentStart (c : Char) : Bool :=
  ('A' ≤ c && c ≤ 'Z') || ('0' ≤ c && c ≤ '9') || c == '(' || c == '"'

/-- Splitter worker.  `prev` is the previous original character, `acc` the
current (reversed) piece; `fuel` bounds the scan length. -/
def splitSentGo : Nat → Char → List Char → List Char → List (List Char)
  | _, _, [], acc => [acc.reverse]
  | 0, _, cs, acc => [acc.reverse ++ cs]
  | fuel + 1, prev, c :: cs, acc =>
    if isSentEnd prev && pyIsSpace c then
      let rest := (c :: cs).dropWhile pyIsSpace
      match rest with
      | d :: _ =>
        if isSentStart d then acc.reverse :: splitSentGo fuel 'x' rest []
        else splitSentGo fuel c cs (c :: acc)
      | [] => splitSentGo fuel c cs (c :: acc)
    else splitSentGo fuel c cs (c :: acc)

/-- `_split_sentences`: split into trimmed, non-empty sentence strings. -/
def split_sentences (text : String) : List String :=
  if text = "" then []
  else
    ((splitSentGo text.data.length 'x' text.data []).map fun cs =>
      trimBy pyIsSpace cs).filterMap fun cs =>
      if cs.isEmpty then none else some ⟨cs⟩

/-! ## Chunker (`Chunk`, `_chunk_sentences`, `src/injection.py:66`) -/

/-- The `Chunk` dataclass. -/
structure Chunk where
  content : String
  page : Option Int
  index : Nat
  tokens : Nat
  source : String
deriving Repr, DecidableEq

/-- Python `" ".join(l)`. -/
def joinSp : List String → String
  | [] => ""
  | [s] => s
  | s :: rest => s ++ " " ++ joinSp rest

/-- Sum of the per-sentence token estimates of a buffer (the quantity the
Python loop maintains in `current_tokens`). -/
def sumEst (l : List String) : Nat := (l.map estimate_tokens).sum

/-- The chunk emitted for a buffer `current` at `running_index` (lines
97–99 of `src/injection.py`): content is the stripped space-join, `tokens`
is re-estimated on the joined content. -/
def mkChunk (current : List String) (idx : Nat) : Chunk :=
  { content := pyStrip (joinSp current)
    page := none
    index := idx
    tokens := estimate_tokens (pyStrip (joinSp current))
    source := "" }

/-- The overlap-window loop of `_chunk_sentences` (lines 102–108): walk the
buffer backwards, prepending sentences and accumulating their estimates,
stopping as soon as the accumulated estimate reaches `overlapTokens`. -/
def overlapGo (overlapTokens : Nat) : List String → List String → Nat → List String
  | [], ovl, _ => ovl
  | s :: rest, ovl, acc =>
    if overlapTokens ≤ acc + estimate_tokens s then s :: ovl
    else overlapGo overlapTokens rest (s :: ovl) (acc + estimate_tokens s)

/-- The overlap window seeded from a finished buffer: trailing sentences of
`current` worth at least `overlapTokens` estimated tokens (all of `current`
if its total estimate is smaller). -/
def overlapWindow (current : List String) (overlapTokens : Nat) : List String :=
  overlapGo overlapTokens current.reverse [] 0

/-- The main loop of `_chunk_sentences` (lines 94–118), one constructor per
Python iteration.  State: remaining sentences, `current` buffer,
`current_tokens`, `running_index`.  On a boundary the buffer is emitted and
the next buffer is seeded with the overlap window plus the pending
sentence; at the end a non-empty buffer is flushed. -/
def chunkGo (maxTokens overlapTokens : Nat) :
    List String → List String → Nat → Nat → List Chunk
  | [], current, _, runningIndex =>
    if current.isEmpty then [] else [mkChunk current runningIndex]
  | sent :: rest, current, currentTokens, runningIndex =>
    let t := estimate_tokens sent
    if ¬current.isEmpty ∧ maxTokens < currentTokens + t then
      mkChunk current runningIndex ::
        chunkGo maxTokens overlapTokens rest
          (overlapWindow current overlapTokens ++ [sent])
          (sumEst (overlapWindow current overlapTokens ++ [sent]))
          (runningIndex + 1)
    else chunkGo maxTokens overlapTokens rest (current ++ [sent]) (currentTokens + t) runningIndex

/-- `_chunk_sentences`: greedy sentence-level chunking with sliding-window
overlap (defaults in the source: `max_tokens = 400`, `overlap_tokens = 60`). -/
def chunk_sentences (sentences : List String) (maxTokens overlapTokens : Nat) : List Chunk :=
  chunkGo maxTokens overlapTokens sentences [] 0 0

/-- Proof-side companion of `chunkGo` that returns each chunk as its list of
sentences (rather than the joined content) and drops the redundant
`current_tokens` accumulator; `chunkGo_eq_chunkIdx` ties it to the real
definition. -/
def chunkLists (maxTokens overlapTokens : Nat) : List String → List String → List (List String)
  | [], current =>
    if current.isEmpty then [] else [current]
  | sent :: rest, current =>
    let t := estimate_tokens sent
    if ¬current.isEmpty ∧ maxTokens < sumEst current + t then
      current ::
        chunkLists maxTokens overlapTokens rest (overlapWindow current overlapTokens ++ [sent])
    else chunkLists maxTokens overlapTokens rest (current ++ [sent])

/-- The chunk sentence-lists of one `_chunk_sentences` run. -/
def chunkSentenceLists (sentences : List String) (maxTokens overlapTokens : Nat) :
    List (List String) :=
  chunkLists maxTokens overlapTokens sentences []

/-! ## PDF extraction with fallback (`pdf_to_chunks_async`, `src/injection.py:123`)

The two extraction strategies are external collaborators:

* the remote (MCP) call `mcp_parse_pdf` either returns a list of
  `(page, text)` records or raises (timeout, non-2xx status, JSON decode
  failure) — modelled as an `Option`;
* the local strategy's `PdfReader` yields the raw text of each page in page
  order — modelled as the list of those texts.

Each page (or remote record) is normalized, skipped when empty, split into
sentences and chunked; chunk indices restart per page. -/

/-- The chunks built from one page's raw text (the shared inner loop of both
branches of `pdf_to_chunks_async`). -/
def pageChunks (pageNum : Int) (source : String) (raw : String)
    (maxTokens overlapTokens : Nat) : List Chunk :=
  let norm := normalize_page_text raw
  if norm = "" then []
  else
    ((chunk_sentences (split_sentences norm) maxTokens overlapTokens).enum).map fun p =>
      { content := p.2.content
        page := some pageNum
        index := p.1
        tokens := p.2.tokens
        source := source }

/-- The `if not use_mcp` branch: PyPDF2 extraction, pages numbered from 1. -/
def localStrategyChunks (localPages : List String) (source : String)
    (maxTokens overlapTokens : Nat) : List Chunk :=
  localPages.enum.bind fun p =>
    pageChunks ((p.1 : Int) + 1) source p.2 maxTokens overlapTokens

/-- The `use_mcp` success branch: one record per remote `(page, text)` pair. -/
def mcpStrategyChunks (pdfChunks : List (Int × String)) (source : String)
    (maxTokens overlapTokens : Nat) : List Chunk :=
  pdfChunks.bind fun pc => pageChunks pc.1 source pc.2 maxTokens overlapTokens

/-- `pdf_to_chunks_async`: `mcpResult = none` models the remote call
raising, in which case the code logs a warning, sets `use_mcp = False` and
falls through to the PyPDF2 branch. -/
def pdf_to_chunks_async (mcpResult : Option (List (Int × String)))
    (localPages : List String) (source : String)
    (maxTokens overlapTokens : Nat) (useMcp : Bool) : List Chunk :=
  match useMcp, mcpResult with
  | true, some pdfChunks => mcpStrategyChunks pdfChunks source maxTokens overlapTokens
  | true, none => localStrategyChunks localPages source maxTokens overlapTokens
  | false, _ => localStrategyChunks localPages source maxTokens overlapTokens

/-! ## Deterministic identifier (`deterministic_id`, `src/injection.py:26`;
seed construction, `src/injection.py:309–311`)

`uuid.uuid5(uuid.NAMESPACE_DNS, text)` is the RFC 4122 name-based UUID:
SHA-1 over the namespace bytes followed by the UTF-8 encoding of the name,
truncated to 128 bits with fixed version/variant bits and rendered as the
canonical hex string.  The hash is implemented below over `Nat` with
explicit `% 2^32` reductions. -/

/-- 2^32, the word modulus of SHA-1. -/
def w32 : Nat := 4294967296

/-- Left-rotation of a 32-bit word. -/
def rotl32 (b x : Nat) : Nat := ((x <<< b) ||| (x >>> (32 - b))) % w32

/-- UTF-8 encoding of one character. -/
def utf8Char (c : Char) : List Nat :=
  let n := c.toNat
  if n < 128 then [n]
  else if n < 2048 then [192 ||| (n >>> 6), 128 ||| (n &&& 63)]
  else if n < 65536 then
    [224 ||| (n >>> 12), 128 ||| ((n >>> 6) &&& 63), 128 ||| (n &&& 63)]
  else
    [240 ||| (n >>> 18), 128 ||| ((n >>> 12) &&& 63),
     128 ||| ((n >>> 6) &&& 63), 128 ||| (n &&& 63)]

/-- UTF-8 encoding of a string as a byte list. -/
def utf8Bytes (s : String) : List Nat := s.data.bind utf8Char

/-- SHA-1 padding: append `0x80`, zero bytes to 56 mod 64, and the 64-bit
big-endian bit length. -/
def sha1Pad (msg : List Nat) : List Nat :=
  let bitLen := msg.length * 8
  let zeros := (119 - msg.length % 64) % 64
  msg ++ [128] ++ List.replicate zeros 0 ++
    ((List.range 8).map fun i => (bitLen >>> ((7 - i) * 8)) % 256)

/-- Big-endian 32-bit words from a byte list. -/
def bytesToWords : List Nat → List Nat
  | b1 :: b2 :: b3 :: b4 :: rest =>
    ((b1 <<< 24) ||| (b2 <<< 16) ||| (b3 <<< 8) ||| b4) :: bytesToWords rest
  | _ => []

/-- Message-schedule extension from 16 to 80 words. -/
def sha1Extend (ws : List Nat) : List Nat :=
  (List.range 64).foldl
    (fun acc _ =>
      let i := acc.length
      acc ++ [rotl32 1 ((acc.getD (i - 3) 0) ^^^ (acc.getD (i - 8) 0) ^^^
                        (acc.getD (i - 14) 0) ^^^ (acc.getD (i - 16) 0))])
    ws

/-- Round function of SHA-1. -/
def sha1F (t b c d : Nat) : Nat :=
  if t < 20 then (b &&& c) ||| ((b ^^^ 4294967295) &&& d)
  else if t < 40 then b ^^^ c ^^^ d
  else if t < 60 then (b &&& c) ||| (b &&& d) ||| (c &&& d)
  else b ^^^ c ^^^ d

/-- Round constant of SHA-1. -/
def sha1K (t : Nat) : Nat :=
  if t < 20 then 1518500249
  else if t < 40 then 1859775393
  else if t < 60 then 2400959708
  else 3395469782

/-- One 512-bit block: run the 80 rounds and add into the running state. -/
def sha1Block (h : Nat × Nat × Nat × Nat × Nat) (block : List Nat) :
    Nat × Nat × Nat × Nat × Nat :=
  let ws := sha1Extend (bytesToWords block)
  let init := h
  let fin := ws.enum.foldl
    (fun st tw =>
      let (a, b, c, d, e) := st
      let temp := (rotl32 5 a + sha1F tw.1 b c d + e + sha1K tw.1 + tw.2) % w32
      (temp, a, rotl32 30 b, c, d))
    init
  match h, fin with
  | (h0, h1, h2, h3, h4), (a, b, c, d, e) =>
    ((h0 + a) % w32, (h1 + b) % w32, (h2 + c) % w32, (h3 + d) % w32, (h4 + e) % w32)

/-- Fold the padded message 64 bytes at a time. -/
def sha1Chunks (bytes : List Nat) (h : Nat × Nat × Nat × Nat × Nat) :
    Nat × Nat × Nat × Nat × Nat :=
  match bytes with
  | [] => h
  | b :: rest => sha1Chunks ((b :: rest).drop 64) (sha1Block h ((b :: rest).take 64))
termination_by bytes.length
decreasing_by simp [List.drop]; omega

/-- Big-endian bytes of one 32-bit word. -/
def wordBytes (x : Nat) : List Nat :=
  [(x >>> 24) % 256, (x >>> 16) % 256, (x >>> 8) % 256, x % 256]

/-- SHA-1 digest (20 bytes) of a byte list. -/
def sha1 (msg : List Nat) : List Nat :=
  let (h0, h1, h2, h3, h4) :=
    sha1Chunks (sha1Pad msg) (1732584193, 4023233417, 2562383102, 271733878, 3285377520)
  wordBytes h0 ++ wordBytes h1 ++ wordBytes h2 ++ wordBytes h3 ++ wordBytes h4

/-- The 16 bytes of `uuid.NAMESPACE_DNS`. -/
def namespaceDNS : List Nat :=
  [107, 167, 184, 16, 157, 173, 17, 209, 128, 180, 0, 192, 79, 212, 48, 200]

/-- Two lowercase hex digits of a byte. -/
def hexByte (n : Nat) : List Char := [Nat.digitChar (n / 16 % 16), Nat.digitChar (n % 16)]

/-- Render 16 UUID bytes as the canonical 8-4-4-4-12 hex string. -/
def uuidFormat (bytes : List Nat) : String :=
  ⟨(bytes.take 4).bind hexByte ++ '-' ::
   ((bytes.drop 4).take 2).bind hexByte ++ '-' ::
   ((bytes.drop 6).take 2).bind hexByte ++ '-' ::
   ((bytes.drop 8).take 2).bind hexByte ++ '-' ::
   (bytes.drop 10).bind hexByte⟩

/-- RFC 4122 name-based UUID, version 5 (`uuid.uuid5`). -/
def uuid5 (namespaceBytes : List Nat) (name : String) : String :=
  let digest := (sha1 (namespaceBytes ++ utf8Bytes name)).take 16
  let withVersion := digest.set 6 (((digest.getD 6 0) &&& 15) ||| 80)
  let withVariant := withVersion.set 8 (((withVersion.getD 8 0) &&& 63) ||| 128)
  uuidFormat withVariant

/-- `deterministic_id`: stable UUID based on the text payload. -/
def deterministic_id (text : String) : String := uuid5 namespaceDNS text

/-- The id seed built in `inject_dataset` (line 310):
`f"{source}|p{page if page is not None else 0}|c{index}|{content}"`. -/
def idSeed (source : String) (page : Option Int) (index : Nat) (content : String) : String :=
  source ++ "|p" ++ (page.getD 0).repr ++ "|c" ++ index.repr ++ "|" ++ content

/-- The deterministic id of a chunk as computed in `inject_dataset`. -/
def chunkUid (ch : Chunk) : String :=
  deterministic_id (idSeed ch.source ch.page ch.index ch.content)

/-! ## Dedup/upsert engine (`async_exists`, `inject_dataset`,
`src/injection.py:236–340`)

The vector store (Weaviate collection) is an external collaborator; for the
dedup protocol only its set of stored ids matters, modelled as a
`Finset String`.  `collection.data.exists` can raise (network failure), so
it is given a failure oracle `raises : String → Bool`; `async_exists`
catches the exception and returns `False`.  `add_texts` with explicit ids
is an upsert: after the call every passed id is present. -/

/-- `async_exists`: existence check that degrades to `False` on error. -/
def async_exists (raises : String → Bool) (store : Finset String) (uid : String) : Bool :=
  if raises uid then false else decide (uid ∈ store)

/-- Upsert-by-id semantics of `vectorstore.add_texts(texts, ids, metadatas)`:
the stored id set afterwards. -/
def upsertIds (store : Finset String) (ids : List String) : Finset String :=
  ids.foldl (fun s i => insert i s) store

/-- The dedup/upsert protocol of `inject_dataset` after chunking (lines
307–340): compute each chunk's uid, run the existence checks, keep the
chunks whose check returned `False`, and upsert exactly those.  Returns the
batch of inserted ids and the resulting stored-id set. -/
def inject_dataset (raises : String → Bool) (store : Finset String)
    (chunks : List Chunk) : List String × Finset String :=
  let packed := chunks.map fun ch => (ch, chunkUid ch)
  let fresh := packed.filter fun p => !async_exists raises store p.2
  let ids := fresh.map fun p => p.2
  (ids, upsertIds store ids)

/-! ## Forgiving ReAct output parsing (`ForgivingReActParser.parse`,
`src/retrieval.py:18–47`)

The strict grammar lives in the `langchain` library (the `super().parse`
call), an external collaborator modelled as an `Option`-valued oracle
(`none` = raises).  `FAILED_ACTIONS` is the process-wide failure memory and
`MAX_FAILURES = 3`. -/

/-- Result of one parse call: `AgentAction` or `AgentFinish`. -/
inductive AgentOut where
  | action (tool toolInput log : String)
  | finish (output log : String)
deriving Repr, DecidableEq

/-- `MAX_FAILURES` from `src/retrieval.py:19`. -/
def MAX_FAILURES : Nat := 3

/-- The fixed diagnostic of the failure ceiling. -/
def tooManyFailuresMsg : String := "ERROR — Too many failed tool attempts. Stopping."

/-- `text.split("Final Answer:")[-1].strip()`. -/
def finalAnswerText (text : String) : String :=
  pyStrip ((pySplitOn "Final Answer:" text).getLastD "")

/-- `text.split("Action:")[1].split("\n")[0].strip()`. -/
def actionName (text : String) : String :=
  pyStrip (firstLine ((pySplitOn "Action:" text).getD 1 ""))

/-- `text.split("Action Input:")[1].split("\n")[0].strip().strip('"')`. -/
def actionInput (text : String) : String :=
  stripQuotes (pyStrip (firstLine ((pySplitOn "Action Input:" text).getD 1 "")))

/-- `ForgivingReActParser.parse`.  `strict` is the inherited
`ReActSingleInputOutputParser.parse` (`none` = it raises), `failed` the
current `FAILED_ACTIONS` list.  Returns the parse result and the new
failure memory. -/
def forgivingParse (strict : String → Option AgentOut)
    (failed : List (String × String)) (text : String) :
    AgentOut × List (String × String) :=
  match strict text with
  | some r => (r, failed)
  | none =>
    if containsSub "Final Answer:" text then
      (.finish (finalAnswerText text) text, failed)
    else if containsSub "Action:" text && containsSub "Action Input:" text then
      let pair := (actionName text, actionInput text)
      let failed2 := if pair ∈ failed then failed else failed ++ [pair]
      if MAX_FAILURES ≤ failed2.length then
        (.finish tooManyFailuresMsg text, failed2)
      else
        (.action pair.1 pair.2 text, failed2)
    else
      (.finish (pyStrip text) text, failed)

/-! ## Proof-side predicates and interpretation helpers -/

/-- No two adjacent space/tab characters (the strings `[ \t]{2,}` cannot
match). -/
def noTwoST (cs : List Char) : Prop :=
  List.Chain' (fun a b => ¬(isST a = true ∧ isST b = true)) cs

/-- Numeric value of a decimal digit character. -/
def digitVal (c : Char) : Nat := c.toNat - '0'.toNat

/-- Interpret a character list as a decimal numeral (used to invert
`Nat.repr`). -/
def digitsVal (cs : List Char) : Nat :=
  cs.foldl (fun a c => 10 * a + digitVal c) 0

/-- Decimal digit characters. -/
def isDigitCh (c : Char) : Bool := '0' ≤ c && c ≤ '9'

/-! # Theorems -/

/-! ## C7 — token estimator -/

/-- C7 counterexample: the claim says the estimator returns
`max(1, round(word_count * 1.3))`; on the three-word text `"a b c"` the
code returns `int(3 * 1.3) = 3` while the claimed value is
`round(3.9) = 4`. -/
theorem C7_round_counterexample :
    (estimate_tokens "a b c" : ℤ) ≠ max 1 (round ((wordCount "a b c" : ℚ) * 1.3)) := by
  have h1 : estimate_tokens "a b c" = 3 := by decide
  have h2 : wordCount "a b c" = 3 := by decide
  rw [h1, h2]
  norm_num [round_eq]

/-- C7 (amended): for every text the estimator returns
`max(1, ⌊word_count(text) * 1.3⌋)` — the floating-point product truncated
toward zero, not rounded — where `word_count` counts whitespace-delimited
tokens; the function is pure and deterministic. -/
theorem C7_token_estimator_floor (s : String) :
    estimate_tokens s = max 1 ⌊(wordCount s : ℚ) * 1.3⌋₊ := by
  have h : (wordCount s : ℚ) * 1.3 = ((13 * wordCount s : ℕ) : ℚ) / ((10 : ℕ) : ℚ) := by
    push_cast; ring
  rw [estimate_tokens, h, Nat.floor_div_nat, Nat.floor_natCast]

/-! ## C9 — silent extraction fallback -/

/-- C9: when the remote parsing call raises (`mcpResult = none`),
`pdf_to_chunks_async` falls back to the local PyPDF2 strategy and returns
exactly the chunk list the local strategy would produce — the same value as
a run with `use_mcp = False`, whatever the remote service would have
returned — and every chunk it returns is page-tagged with a valid 1-based
page of the local extraction and carries the source file name.  The remote
error is not surfaced: the function is total and its result type carries no
error. -/
theorem C9_silent_extraction_fallback (mcpAny : Option (List (Int × String)))
    (localPages : List String) (source : String) (maxTokens overlapTokens : Nat) :
    pdf_to_chunks_async none localPages source maxTokens overlapTokens true =
      localStrategyChunks localPages source maxTokens overlapTokens ∧
    pdf_to_chunks_async mcpAny localPages source maxTokens overlapTokens false =
      localStrategyChunks localPages source maxTokens overlapTokens ∧
    ∀ c ∈ pdf_to_chunks_async none localPages source maxTokens overlapTokens true,
      c.source = source ∧ ∃ i, i < localPages.length ∧ c.page = some ((i : Int) + 1) := by
  refine ⟨rfl, by cases mcpAny <;> rfl, ?_⟩
  intro c hc
  have hc' : c ∈ localStrategyChunks localPages source maxTokens overlapTokens := hc
  rw [localStrategyChunks, List.mem_bind] at hc'
  obtain ⟨p, hp, hcp⟩ := hc'
  have hplen : p.1 < localPages.length := by
    have := List.fst_lt_of_mem_enum hp
    simpa using this
  rw [pageChunks] at hcp
  by_cases hn : normalize_page_text p.2 = ""
  · simp [hn] at hcp
  · simp only [if_neg hn, List.mem_map] at hcp
    obtain ⟨q, _, hq⟩ := hcp
    refine ⟨by rw [← hq], p.1, hplen, by rw [← hq]⟩

/-! ## Parse-branch shape lemmas (shared by C4 and C5) -/

/-- Branch (a): a malformed output containing a `Final Answer:` marker. -/
theorem forgivingParse_final_case (strict : String → Option AgentOut)
    (failed : List (String × String)) (text : String)
    (hstrict : strict text = none)
    (hfin : containsSub "Final Answer:" text = true) :
    forgivingParse strict failed text = (.finish (finalAnswerText text) text, failed) := by
  rw [forgivingParse, hstrict, hfin]
  simp

/-- Branch (b): a malformed output with both action markers and no
`Final Answer:` marker reaches the failure-memory logic. -/
theorem forgivingParse_action_case (strict : String → Option AgentOut)
    (failed : List (String × String)) (text : String)
    (hstrict : strict text = none)
    (hfin : containsSub "Final Answer:" text = false)
    (hact : containsSub "Action:" text = true)
    (hai : containsSub "Action Input:" text = true) :
    forgivingParse strict failed text =
      (if MAX_FAILURES ≤
          (if (actionName text, actionInput text) ∈ failed then failed
           else failed ++ [(actionName text, actionInput text)]).length then
        (.finish tooManyFailuresMsg text,
         if (actionName text, actionInput text) ∈ failed then failed
         else failed ++ [(actionName text, actionInput text)])
      else
        (.action (actionName text) (actionInput text) text,
         if (actionName text, actionInput text) ∈ failed then failed
         else failed ++ [(actionName text, actionInput text)])) := by
  rw [forgivingParse, hstrict, hfin, hact, hai]
  simp

/-- Branch (c): a malformed output with neither marker combination. -/
theorem forgivingParse_noise_case (strict : String → Option AgentOut)
    (failed : List (String × String)) (text : String)
    (hstrict : strict text = none)
    (hfin : containsSub "Final Answer:" text = false)
    (hboth : (containsSub "Action:" text && containsSub "Action Input:" text) = false) :
    forgivingParse strict failed text = (.finish (pyStrip text) text, failed) := by
  rw [forgivingParse, hstrict, hfin, hboth]
  simp

/-! ## C4 — failure ceiling -/

/-- C4: for every malformed model output (the strict parser raises), one
parse step (a) keeps the failure memory duplicate-free and only ever
appends to it — so each distinct `(tool, input)` pair is recorded at most
once — and (b) once `MAX_FAILURES = 3` recorded failures have accumulated
it never emits another action: every branch returns a finished state, and
the action-recovery branch returns exactly the fixed diagnostic
`"ERROR — Too many failed tool attempts. Stopping."`.  Since this holds at
every reachable memory state, a loop fed any sequence of malformed outputs
can never continue past 3 recorded distinct failures. -/
theorem C4_failure_ceiling (strict : String → Option AgentOut)
    (failed : List (String × String)) (text : String)
    (hstrict : strict text = none) :
    (failed.Nodup → ((forgivingParse strict failed text).2).Nodup) ∧
    failed <+: (forgivingParse strict failed text).2 ∧
    (MAX_FAILURES ≤ failed.length →
      (∀ t i l, (forgivingParse strict failed text).1 ≠ .action t i l) ∧
      (containsSub "Final Answer:" text = false →
        containsSub "Action:" text = true → containsSub "Action Input:" text = true →
        (forgivingParse strict failed text).1 = .finish tooManyFailuresMsg text)) := by
  by_cases hfin : containsSub "Final Answer:" text = true
  · rw [forgivingParse_final_case strict failed text hstrict hfin]
    exact ⟨fun h => h, List.prefix_refl _, fun _ =>
      ⟨fun t i l h => AgentOut.noConfusion h, fun hc _ _ => by rw [hfin] at hc; cases hc⟩⟩
  · rw [Bool.not_eq_true] at hfin
    by_cases hact : containsSub "Action:" text = true
    · by_cases hai : containsSub "Action Input:" text = true
      · rw [forgivingParse_action_case strict failed text hstrict hfin hact hai]
        have hgrow : failed <+:
            (if (actionName text, actionInput text) ∈ failed then failed
             else failed ++ [(actionName text, actionInput text)]) := by
          split
          · exact List.prefix_refl _
          · exact List.prefix_append _ _
        have hnodup : failed.Nodup →
            (if (actionName text, actionInput text) ∈ failed then failed
             else failed ++ [(actionName text, actionInput text)]).Nodup := by
          intro hnd
          split
          · exact hnd
          · next hmem => exact List.Nodup.append hnd (List.nodup_singleton _) (by simpa using hmem)
        have hlen : failed.length ≤
            (if (actionName text, actionInput text) ∈ failed then failed
             else failed ++ [(actionName text, actionInput text)]).length := by
          split
          · exact le_refl _
          · simp
        by_cases hceil : MAX_FAILURES ≤
            (if (actionName text, actionInput text) ∈ failed then failed
             else failed ++ [(actionName text, actionInput text)]).length
        · rw [if_pos hceil]
          exact ⟨hnodup, hgrow, fun _ =>
            ⟨fun t i l h => AgentOut.noConfusion h, fun _ _ _ => rfl⟩⟩
        · rw [if_neg hceil]
          refine ⟨hnodup, hgrow, fun hbig => absurd (le_trans hbig hlen) hceil⟩
      · rw [Bool.not_eq_true] at hai
        rw [forgivingParse_noise_case strict failed text hstrict hfin (by rw [hai, Bool.and_false])]
        exact ⟨fun h => h, List.prefix_refl _, fun _ =>
          ⟨fun t i l h => AgentOut.noConfusion h, fun _ _ hc => by rw [hai] at hc; cases hc⟩⟩
    · rw [Bool.not_eq_true] at hact
      rw [forgivingParse_noise_case strict failed text hstrict hfin (by rw [hact, Bool.false_and])]
      exact ⟨fun h => h, List.prefix_refl _, fun _ =>
        ⟨fun t i l h => AgentOut.noConfusion h, fun _ hc _ => by rw [hact] at hc; cases hc⟩⟩

/-- C4 witness: at a memory that already records three distinct failures, a
further malformed action output is forced to the fixed diagnostic finish. -/
theorem C4_failure_ceiling_witness :
    ((fun _ : String => (none : Option AgentOut)) "Action: Foo\nAction Input: \"bar\"\n" = none) ∧
    MAX_FAILURES ≤ ([("a", "1"), ("b", "2"), ("c", "3")] : List (String × String)).length ∧
    (forgivingParse (fun _ => none) [("a", "1"), ("b", "2"), ("c", "3")]
        "Action: Foo\nAction Input: \"bar\"\n").1 =
      .finish tooManyFailuresMsg "Action: Foo\nAction Input: \"bar\"\n" :=
  ⟨rfl, by decide,
    ((C4_failure_ceiling (fun _ => none) [("a", "1"), ("b", "2"), ("c", "3")]
      "Action: Foo\nAction Input: \"bar\"\n" rfl).2.2 (by decide)).2 (by decide) (by decide)
      (by decide)⟩

/-! ## C5 — forgiving parser recovery order -/

/-- C5: for every raw model output on which the strict grammar parser
raises, recovery never raises (the parse step is total) and follows exactly
this order: (a) if the text contains a `Final Answer:` marker, everything
after it (stripped) is returned as the final result; (b) else if it
contains both `Action:` and `Action Input:` markers, the first line after
each — stripped, and with surrounding quotes stripped from the input — is
returned as a normal action (provided the failure memory, after recording,
stays below the `MAX_FAILURES` cap, per C4); (c) otherwise the whole
stripped text is returned as the final answer. -/
theorem C5_forgiving_recovery (strict : String → Option AgentOut)
    (failed : List (String × String)) (text : String)
    (hstrict : strict text = none) :
    (containsSub "Final Answer:" text = true →
      forgivingParse strict failed text = (.finish (finalAnswerText text) text, failed)) ∧
    (containsSub "Final Answer:" text = false →
      containsSub "Action:" text = true → containsSub "Action Input:" text = true →
      failed.length ≤ 1 →
      (forgivingParse strict failed text).1 =
        .action (actionName text) (actionInput text) text) ∧
    (containsSub "Final Answer:" text = false →
      (containsSub "Action:" text && containsSub "Action Input:" text) = false →
      forgivingParse strict failed text = (.finish (pyStrip text) text, failed)) := by
  refine ⟨fun hfin => forgivingParse_final_case strict failed text hstrict hfin,
    fun hfin hact hai hsmall => ?_,
    fun hfin hboth => forgivingParse_noise_case strict failed text hstrict hfin hboth⟩
  rw [forgivingParse_action_case strict failed text hstrict hfin hact hai]
  have hlen : (if (actionName text, actionInput text) ∈ failed then failed
      else failed ++ [(actionName text, actionInput text)]).length ≤ failed.length + 1 := by
    split
    · omega
    · simp
  rw [if_neg (by rw [MAX_FAILURES]; omega)]

/-- C5 witness: the three concrete behaviours named by the claim, from the
initial (empty) failure memory: `"Action: Foo\nAction Input: \"bar\"\n"`
yields the action `Foo`/`bar`, `"Final Answer: 42"` yields the final result
`42`, and bare noise yields the stripped input as final answer. -/
theorem C5_forgiving_recovery_witness :
    ((fun _ : String => (none : Option AgentOut)) "Action: Foo\nAction Input: \"bar\"\n" = none ∧
     ([] : List (String × String)).length ≤ 1 ∧
     (forgivingParse (fun _ => none) [] "Action: Foo\nAction Input: \"bar\"\n").1 =
       .action "Foo" "bar" "Action: Foo\nAction Input: \"bar\"\n") ∧
    (forgivingParse (fun _ => none) [] "Final Answer: 42").1 =
      .finish "42" "Final Answer: 42" ∧
    (forgivingParse (fun _ => none) [] " some noise ").1 =
      .finish "some noise" " some noise " := by
  refine ⟨⟨rfl, by decide, ?_⟩, ?_, ?_⟩
  · have h := (C5_forgiving_recovery (fun _ => none) []
      "Action: Foo\nAction Input: \"bar\"\n" rfl).2.1 (by decide) (by decide) (by decide)
      (by decide)
    rw [h]
    have h1 : actionName "Action: Foo\nAction Input: \"bar\"\n" = "Foo" := by decide
    have h2 : actionInput "Action: Foo\nAction Input: \"bar\"\n" = "bar" := by decide
    rw [h1, h2]
  · have h := (C5_forgiving_recovery (fun _ => none) [] "Final Answer: 42" rfl).1 (by decide)
    rw [h]
    have h1 : finalAnswerText "Final Answer: 42" = "42" := by decide
    rw [h1]
  · have h := (C5_forgiving_recovery (fun _ => none) [] " some noise " rfl).2.2 (by decide)
      (by decide)
    rw [h]
    have h1 : pyStrip " some noise " = "some noise" := by decide
    rw [h1]

/-! ## C1 — idempotent ingestion, C10 — existence-check failure tolerance -/

/-- Membership in the upserted store: an id is present afterwards iff it
was inserted in this batch or was already present. -/
theorem mem_upsertIds (store : Finset String) (ids : List String) (x : String) :
    x ∈ upsertIds store ids ↔ x ∈ ids ∨ x ∈ store := by
  induction ids generalizing store with
  | nil => simp [upsertIds]
  | cons i rest ih =>
    rw [upsertIds, List.foldl_cons]
    have := ih (insert i store)
    rw [upsertIds] at this
    rw [this]
    simp [Finset.mem_insert]
    tauto

/-- C1: idempotent ingestion.  The chunk list computed from an unchanged
file is a pure function of the file (every stage of the pipeline above is a
Lean function), so a second run of `inject_dataset` receives the same
chunks.  Provided the existence checks do not raise, after the first run
every computed identifier is found already present by the existence check,
the second run's insert batch is empty (zero net new inserts), and the
stored-id set is exactly the set left by the first run. -/
theorem C1_idempotent_ingestion (raises : String → Bool) (store : Finset String)
    (chunks : List Chunk) (hok : ∀ uid, raises uid = false) :
    (∀ ch ∈ chunks,
      async_exists raises (inject_dataset raises store chunks).2 (chunkUid ch) = true) ∧
    (inject_dataset raises (inject_dataset raises store chunks).2 chunks).1 = [] ∧
    (inject_dataset raises (inject_dataset raises store chunks).2 chunks).2 =
      (inject_dataset raises store chunks).2 := by
  have hmem : ∀ ch ∈ chunks, chunkUid ch ∈ (inject_dataset raises store chunks).2 := by
    intro ch hch
    rw [inject_dataset, mem_upsertIds]
    by_cases hs : chunkUid ch ∈ store
    · exact Or.inr hs
    · left
      refine List.mem_map.mpr ⟨(ch, chunkUid ch), ?_, rfl⟩
      refine List.mem_filter.mpr ⟨List.mem_map.mpr ⟨ch, hch, rfl⟩, ?_⟩
      rw [async_exists, hok, if_neg (by simp)]
      simpa using hs
  have hexists : ∀ ch ∈ chunks,
      async_exists raises (inject_dataset raises store chunks).2 (chunkUid ch) = true := by
    intro ch hch
    rw [async_exists, hok, if_neg (by simp)]
    simpa using hmem ch hch
  have hempty : (inject_dataset raises (inject_dataset raises store chunks).2 chunks).1 = [] := by
    rw [inject_dataset]
    have : (chunks.map fun ch => (ch, chunkUid ch)).filter
        (fun p => !async_exists raises (inject_dataset raises store chunks).2 p.2) = [] := by
      rw [List.filter_eq_nil]
      intro p hp
      obtain ⟨ch, hch, rfl⟩ := List.mem_map.mp hp
      rw [hexists ch hch]
      simp
    rw [this]
    rfl
  refine ⟨hexists, hempty, ?_⟩
  have h2 : (inject_dataset raises (inject_dataset raises store chunks).2 chunks).2 =
      upsertIds (inject_dataset raises store chunks).2
        (inject_dataset raises (inject_dataset raises store chunks).2 chunks).1 := rfl
  rw [h2, hempty]
  rfl

/-- C1 witness: a concrete second run (one chunk, reliable store) inserts
nothing and leaves the stored-id set unchanged. -/
theorem C1_idempotent_ingestion_witness :
    (∀ uid, (fun _ : String => false) uid = false) ∧
    (inject_dataset (fun _ => false)
        (inject_dataset (fun _ => false) ∅
          [{ content := "x", page := none, index := 0, tokens := 1, source := "d" }]).2
        [{ content := "x", page := none, index := 0, tokens := 1, source := "d" }]).1 = [] :=
  ⟨fun _ => rfl,
    (C1_idempotent_ingestion (fun _ => false) ∅
      [{ content := "x", page := none, index := 0, tokens := 1, source := "d" }]
      (fun _ => rfl)).2.1⟩

/-- C10: if the per-chunk existence check raises for a chunk's id,
`async_exists` returns `false`, so `inject_dataset` treats the chunk as new
and includes its id in the upsert batch — even if the id is already in the
store — and the ingestion call still returns normally (the model is a total
function; no exception escapes `async_exists`). -/
theorem C10_exists_failure_reinserts (raises : String → Bool) (store : Finset String)
    (chunks : List Chunk) (ch : Chunk) (hch : ch ∈ chunks)
    (hraise : raises (chunkUid ch) = true) :
    async_exists raises store (chunkUid ch) = false ∧
    chunkUid ch ∈ (inject_dataset raises store chunks).1 := by
  have hfalse : async_exists raises store (chunkUid ch) = false := by
    rw [async_exists, hraise, if_pos rfl]
  refine ⟨hfalse, ?_⟩
  rw [inject_dataset]
  refine List.mem_map.mpr ⟨(ch, chunkUid ch), ?_, rfl⟩
  refine List.mem_filter.mpr ⟨List.mem_map.mpr ⟨ch, hch, rfl⟩, ?_⟩
  rw [hfalse]
  rfl

/-- C10 witness: a concrete raising existence check forces the chunk's id
into the insert batch even though the store already holds it. -/
theorem C10_exists_failure_reinserts_witness :
    ({ content := "x", page := none, index := 0, tokens := 1, source := "d" } : Chunk) ∈
      [({ content := "x", page := none, index := 0, tokens := 1, source := "d" } : Chunk)] ∧
    (fun _ : String => true)
      (chunkUid { content := "x", page := none, index := 0, tokens := 1, source := "d" }) = true ∧
    chunkUid { content := "x", page := none, index := 0, tokens := 1, source := "d" } ∈
      (inject_dataset (fun _ => true)
        {chunkUid { content := "x", page := none, index := 0, tokens := 1, source := "d" }}
        [{ content := "x", page := none, index := 0, tokens := 1, source := "d" }]).1 :=
  ⟨List.mem_singleton_self _, rfl,
    (C10_exists_failure_reinserts (fun _ => true)
      {chunkUid { content := "x", page := none, index := 0, tokens := 1, source := "d" }}
      [{ content := "x", page := none, index := 0, tokens := 1, source := "d" }]
      { content := "x", page := none, index := 0, tokens := 1, source := "d" }
      (List.mem_singleton_self _) rfl).2⟩

/-! ## C6 — deterministic identifier

Support: decimal numerals are injective (`Nat.repr`, `Int.repr`), proved by
interpreting the digit string back into a number. -/


theorem digitVal_digitChar (m : Nat) (h : m < 10) : digitVal (Nat.digitChar m) = m := by
  interval_cases m <;> rfl

theorem digitChar_isDigit (m : Nat) (h : m < 10) : isDigitCh (Nat.digitChar m) = true := by
  interval_cases m <;> rfl

theorem digitsVal_toDigitsCore (fuel : Nat) :
    ∀ n ds a, n < fuel →
      ∃ k, List.foldl (fun a c => 10 * a + digitVal c) a (Nat.toDigitsCore 10 fuel n ds) =
        List.foldl (fun a c => 10 * a + digitVal c) (a * 10 ^ k + n) ds := by
  induction fuel with
  | zero => intro n ds a h; omega
  | succ fuel ih =>
    intro n ds a h
    rw [Nat.toDigitsCore]
    by_cases h10 : n / 10 = 0
    · simp only [h10, if_pos]
      refine ⟨1, ?_⟩
      rw [List.foldl_cons, digitVal_digitChar _ (Nat.mod_lt _ (by norm_num))]
      have hn : n % 10 = n := by omega
      rw [hn, pow_one]
      congr 1
      ring
    · simp only [h10, if_neg, if_false]
      have hpos : 0 < n := by
        rcases Nat.eq_zero_or_pos n with h0 | h0
        · rw [h0] at h10; simp at h10
        · exact h0
      have hlt : n / 10 < fuel := lt_of_lt_of_le (Nat.div_lt_self hpos (by norm_num)) (by omega)
      obtain ⟨k, hk⟩ := ih (n / 10) (Nat.digitChar (n % 10) :: ds) a hlt
      rw [hk, List.foldl_cons]
      refine ⟨k + 1, ?_⟩
      congr 1
      rw [digitVal_digitChar _ (Nat.mod_lt _ (by norm_num))]
      calc 10 * (a * 10 ^ k + n / 10) + n % 10
          = a * (10 ^ k * 10) + (10 * (n / 10) + n % 10) := by ring
        _ = a * 10 ^ (k + 1) + n := by rw [pow_succ, Nat.div_add_mod]

theorem digitsVal_toDigits (n : Nat) : digitsVal (Nat.toDigits 10 n) = n := by
  obtain ⟨k, hk⟩ := digitsVal_toDigitsCore (n + 1) n [] 0 (by omega)
  rw [Nat.toDigits, digitsVal, hk]
  simp

theorem natRepr_inj {m n : Nat} (h : Nat.repr m = Nat.repr n) : m = n := by
  have hd : Nat.toDigits 10 m = Nat.toDigits 10 n := congrArg String.data h
  have := congrArg digitsVal hd
  rwa [digitsVal_toDigits, digitsVal_toDigits] at this

theorem toDigitsCore_mem (fuel : Nat) :
    ∀ n ds c, c ∈ Nat.toDigitsCore 10 fuel n ds → c ∈ ds ∨ isDigitCh c = true := by
  induction fuel with
  | zero => intro n ds c hc; exact Or.inl hc
  | succ fuel ih =>
    intro n ds c hc
    rw [Nat.toDigitsCore] at hc
    by_cases h10 : n / 10 = 0
    · simp only [h10, if_pos] at hc
      rcases List.mem_cons.mp hc with h | h
      · exact Or.inr (h ▸ digitChar_isDigit _ (Nat.mod_lt _ (by norm_num)))
      · exact Or.inl h
    · simp only [h10, if_neg, if_false] at hc
      rcases ih (n / 10) _ c hc with h | h
      · rcases List.mem_cons.mp h with h' | h'
        · exact Or.inr (h' ▸ digitChar_isDigit _ (Nat.mod_lt _ (by norm_num)))
        · exact Or.inl h'
      · exact Or.inr h

theorem toDigitsCore_ne_nil_of_ne_nil (fuel : Nat) :
    ∀ n ds, ds ≠ [] → Nat.toDigitsCore 10 fuel n ds ≠ [] := by
  induction fuel with
  | zero => intro n ds h; rw [Nat.toDigitsCore]; exact h
  | succ fuel ih =>
    intro n ds h
    rw [Nat.toDigitsCore]
    by_cases h10 : n / 10 = 0
    · simp only [h10, if_pos]; exact List.cons_ne_nil _ _
    · simp only [h10, if_neg, if_false]
      exact ih _ _ (List.cons_ne_nil _ _)

theorem toDigits_ne_nil (n : Nat) : Nat.toDigits 10 n ≠ [] := by
  rw [Nat.toDigits, Nat.toDigitsCore]
  by_cases h10 : n / 10 = 0
  · simp only [h10, if_pos]; exact List.cons_ne_nil _ _
  · simp only [h10, if_neg, if_false]
    exact toDigitsCore_ne_nil_of_ne_nil _ _ _ (List.cons_ne_nil _ _)

theorem natRepr_head_digit (n : Nat) :
    ∀ c ∈ (Nat.repr n).data.head?, isDigitCh c = true := by
  intro c hc
  cases h : Nat.toDigits 10 n with
  | nil => exact absurd h (toDigits_ne_nil n)
  | cons d ds =>
    have hdata : (Nat.repr n).data = d :: ds := by
      rw [Nat.repr]; exact congrArg (fun l => l) h
    rw [hdata] at hc
    simp at hc
    rcases toDigitsCore_mem _ _ _ d (by rw [← Nat.toDigits]; rw [h]; exact List.mem_cons_self _ _) with h' | h'
    · exact absurd h' (List.not_mem_nil _)
    · rw [← hc]; exact h'

theorem intRepr_inj {a b : Int} (h : Int.repr a = Int.repr b) : a = b := by
  cases a with
  | ofNat m =>
    cases b with
    | ofNat n => exact congrArg Int.ofNat (natRepr_inj h)
    | negSucc n =>
      exfalso
      rw [Int.repr, Int.repr] at h
      have hd := congrArg String.data h
      rw [String.data_append] at hd
      have hh := natRepr_head_digit m
      cases hm : (Nat.repr m).data with
      | nil => exact toDigits_ne_nil m (by rw [← hm]; rfl)
      | cons c cs =>
        rw [hm] at hd
        have : c = '-' := by
          have : ("-" : String).data = ['-'] := rfl
          rw [this] at hd
          exact (List.cons.injEq _ _ _ _ ▸ hd).1
        have hdig := hh c (by rw [hm]; rfl)
        rw [this] at hdig
        exact absurd hdig (by decide)
  | negSucc m =>
    cases b with
    | ofNat n =>
      exfalso
      rw [Int.repr, Int.repr] at h
      have hd := congrArg String.data h.symm
      rw [String.data_append] at hd
      have hh := natRepr_head_digit n
      cases hm : (Nat.repr n).data with
      | nil => exact toDigits_ne_nil n (by rw [← hm]; rfl)
      | cons c cs =>
        rw [hm] at hd
        have : c = '-' := by
          have h2 : ("-" : String).data = ['-'] := rfl
          rw [h2] at hd
          exact (List.cons.injEq _ _ _ _ ▸ hd).1
        have hdig := hh c (by rw [hm]; rfl)
        rw [this] at hdig
        exact absurd hdig (by decide)
    | negSucc n =>
      rw [Int.repr, Int.repr] at h
      have hd := congrArg String.data h
      rw [String.data_append, String.data_append] at hd
      have := List.append_cancel_left hd
      have h3 := natRepr_inj (String.ext this)
      have hmn : m = n := by omega
      rw [hmn]

/-- C6 counterexample: the identifier is not injective in the page field —
a chunk with `page = None` and one with `page = 0` produce the identical
seed `"…|p0|…"`, hence the identical identifier, although the tuples
differ. -/
theorem C6_page_zero_counterexample :
    (none : Option Int) ≠ some 0 ∧
    idSeed "doc.pdf" none 0 "x" = idSeed "doc.pdf" (some 0) 0 "x" ∧
    deterministic_id (idSeed "doc.pdf" none 0 "x") =
      deterministic_id (idSeed "doc.pdf" (some 0) 0 "x") :=
  ⟨by decide, rfl, rfl⟩

/-- C6 (amended): the identifier is a pure function of
`(source, page, index, content)` — equal tuples always give equal
identifier strings — and changing exactly one field changes the seed string
fed to the namespaced hash, with one exception: the pages `None` and `0`
are printed identically, so they share a seed.  (Distinct seeds give
distinct identifiers up to collisions of the underlying 128-bit SHA-1-based
digest, which pigeonhole makes unavoidable for any hash.) -/
theorem C6_deterministic_identifier (s s' : String) (p p' : Option Int) (i i' : Nat)
    (c c' : String) :
    (s = s' → p = p' → i = i' → c = c' →
      deterministic_id (idSeed s p i c) = deterministic_id (idSeed s' p' i' c')) ∧
    (s ≠ s' → idSeed s p i c ≠ idSeed s' p i c) ∧
    (p.getD 0 ≠ p'.getD 0 → idSeed s p i c ≠ idSeed s p' i c) ∧
    (i ≠ i' → idSeed s p i c ≠ idSeed s p i' c) ∧
    (c ≠ c' → idSeed s p i c ≠ idSeed s p i c') := by
  refine ⟨fun h1 h2 h3 h4 => by rw [h1, h2, h3, h4], ?_, ?_, ?_, ?_⟩
  · intro hne h
    have hd := congrArg String.data h
    simp only [idSeed, String.data_append, List.append_assoc] at hd
    exact hne (String.ext (List.append_cancel_right hd))
  · intro hne h
    have hd := congrArg String.data h
    simp only [idSeed, String.data_append, List.append_assoc] at hd
    have h1 := List.append_cancel_left hd
    have h2 := List.append_cancel_left h1
    have h3 := List.append_cancel_right h2
    exact hne (intRepr_inj (String.ext h3))
  · intro hne h
    have hd := congrArg String.data h
    simp only [idSeed, String.data_append, List.append_assoc] at hd
    have h1 := List.append_cancel_left hd
    have h2 := List.append_cancel_left h1
    have h3 := List.append_cancel_left h2
    have h4 := List.append_cancel_left h3
    have h5 := List.append_cancel_right h4
    exact hne (natRepr_inj (String.ext h5))
  · intro hne h
    have hd := congrArg String.data h
    simp only [idSeed, String.data_append, List.append_assoc] at hd
    have h1 := List.append_cancel_left hd
    have h2 := List.append_cancel_left h1
    have h3 := List.append_cancel_left h2
    have h4 := List.append_cancel_left h3
    have h5 := List.append_cancel_left h4
    have h6 := List.append_cancel_left h5
    exact hne (String.ext h6)

/-- C6 witness: concrete single-field changes produce distinct seeds, and a
concrete identical tuple reproduces the identical identifier. -/
theorem C6_deterministic_identifier_witness :
    ("a" : String) ≠ "b" ∧ idSeed "a" none 0 "x" ≠ idSeed "b" none 0 "x" ∧
    (0 : Nat) ≠ 1 ∧ idSeed "a" none 0 "x" ≠ idSeed "a" none 1 "x" ∧
    ("x" : String) ≠ "y" ∧ idSeed "a" none 0 "x" ≠ idSeed "a" none 0 "y" ∧
    ((some 2 : Option Int).getD 0 ≠ (some 3 : Option Int).getD 0) ∧
    idSeed "a" (some 2) 0 "x" ≠ idSeed "a" (some 3) 0 "x" :=
  ⟨by decide,
    (C6_deterministic_identifier "a" "b" none none 0 0 "x" "x").2.1 (by decide),
    by decide,
    (C6_deterministic_identifier "a" "a" none none 0 1 "x" "x").2.2.2.1 (by decide),
    by decide,
    (C6_deterministic_identifier "a" "a" none none 0 0 "x" "y").2.2.2.2 (by decide),
    by decide,
    (C6_deterministic_identifier "a" "a" (some 2) (some 3) 0 0 "x" "x").2.2.1 (by decide)⟩

/-! ## C2, C3 — chunk budget and overlap contract

Support: arithmetic of per-sentence estimates, an exact characterisation of
the overlap window, and the structure of consecutive chunks. -/

theorem estimate_tokens_pos (s : String) : 1 ≤ estimate_tokens s := le_max_left _ _

theorem sumEst_nil : sumEst [] = 0 := rfl

theorem sumEst_cons (s : String) (l : List String) :
    sumEst (s :: l) = estimate_tokens s + sumEst l := by
  simp [sumEst]

theorem sumEst_append (l1 l2 : List String) : sumEst (l1 ++ l2) = sumEst l1 + sumEst l2 := by
  simp [sumEst]

theorem sumEst_reverse (l : List String) : sumEst l.reverse = sumEst l := by
  simp [sumEst, List.sum_reverse]

theorem suffix_eq_take_reverse {w l : List String} (h : w <:+ l) :
    w = (l.reverse.take w.length).reverse := by
  obtain ⟨u, hu⟩ := h
  have : l.reverse = w.reverse ++ u.reverse := by rw [← hu, List.reverse_append]
  rw [this]
  rw [← List.length_reverse w, List.take_left, List.reverse_reverse]

theorem overlapGo_spec (O : Nat) (rev : List String) :
    ∀ (ovl : List String) (acc : Nat), acc = sumEst ovl → acc < O →
      ∃ k, k ≤ rev.length ∧
        overlapGo O rev ovl acc = (rev.take k).reverse ++ ovl ∧
        (rev ≠ [] → 1 ≤ k) ∧
        (∀ j, j < k → sumEst (rev.take j) + acc < O) ∧
        (O ≤ sumEst rev + acc → O ≤ sumEst (rev.take k) + acc) ∧
        (sumEst rev + acc < O → k = rev.length) := by
  induction rev with
  | nil =>
    intro ovl acc hacc hlt
    refine ⟨0, le_refl _, by simp [overlapGo], fun h => absurd rfl h, ?_, ?_, fun _ => rfl⟩
    · intro j hj; omega
    · rw [sumEst_nil]; omega
  | cons s rest ih =>
    intro ovl acc hacc hlt
    by_cases hstop : O ≤ acc + estimate_tokens s
    · refine ⟨1, by simp, ?_, fun _ => le_refl _, ?_, ?_, ?_⟩
      · rw [overlapGo, if_pos hstop]
        simp
      · intro j hj
        have : j = 0 := by omega
        rw [this, List.take_zero, sumEst_nil]
        omega
      · intro _
        rw [List.take_succ_cons, List.take_zero, sumEst_cons, sumEst_nil]
        omega
      · intro hsum
        rw [sumEst_cons] at hsum
        omega
    · have hlt' : acc + estimate_tokens s < O := by omega
      have hacc' : acc + estimate_tokens s = sumEst (s :: ovl) := by
        rw [sumEst_cons, hacc]; omega
      obtain ⟨k, hklen, hkeq, _, hklt, hkge, hkall⟩ := ih (s :: ovl) _ hacc' hlt'
      refine ⟨k + 1, by simpa using hklen, ?_, fun _ => by omega, ?_, ?_, ?_⟩
      · rw [overlapGo, if_neg hstop, hkeq, List.take_succ_cons, List.reverse_cons,
          List.append_assoc, List.singleton_append]
      · intro j hj
        cases j with
        | zero =>
          rw [List.take_zero, sumEst_nil]
          omega
        | succ j' =>
          rw [List.take_succ_cons, sumEst_cons]
          have := hklt j' (by omega)
          omega
      · intro hsum
        rw [sumEst_cons] at hsum
        have := hkge (by omega)
        rw [List.take_succ_cons, sumEst_cons]
        omega
      · intro hsum
        rw [sumEst_cons] at hsum
        have := hkall (by omega)
        rw [List.length_cons]
        omega

theorem overlapWindow_spec (l : List String) (O : Nat) (hO : 0 < O) :
    overlapWindow l O <:+ l ∧
    (l ≠ [] → overlapWindow l O ≠ []) ∧
    (sumEst l < O → overlapWindow l O = l) ∧
    (O ≤ sumEst l → O ≤ sumEst (overlapWindow l O) ∧
      ∀ w, w <:+ l → O ≤ sumEst w → (overlapWindow l O).length ≤ w.length) := by
  obtain ⟨k, hklen, hkeq, hkne, hklt, hkge, hkall⟩ :=
    overlapGo_spec O l.reverse [] 0 rfl hO
  have hweq : overlapWindow l O = (l.reverse.take k).reverse := by
    rw [overlapWindow, hkeq, List.append_nil]
  have hsuffix : overlapWindow l O <:+ l := by
    rw [hweq]
    refine ⟨(l.reverse.drop k).reverse, ?_⟩
    rw [← List.reverse_append, List.take_append_drop, List.reverse_reverse]
  have hlen : (overlapWindow l O).length = k := by
    rw [hweq, List.length_reverse, List.length_take]
    omega
  refine ⟨hsuffix, ?_, ?_, ?_⟩
  · intro hne
    rw [hweq]
    have h1 : 1 ≤ k := hkne (by simpa using hne)
    intro hcontra
    have := congrArg List.length hcontra
    rw [List.length_reverse, List.length_take] at this
    simp at this
    rcases this with h | h
    · omega
    · exact hne (by simpa using h)
  · intro hsum
    have hk : k = l.reverse.length := hkall (by rw [sumEst_reverse]; omega)
    rw [hweq, hk, List.take_length, List.reverse_reverse]
  · intro hsum
    have hge := hkge (by rw [sumEst_reverse]; omega)
    constructor
    · rw [hweq, sumEst_reverse]
      omega
    · intro w hw hwsum
      by_contra hcon
      push_neg at hcon
      rw [hlen] at hcon
      have hweq2 := suffix_eq_take_reverse hw
      have : sumEst (l.reverse.take w.length) + 0 < O := hklt w.length hcon
      rw [hweq2, sumEst_reverse] at hwsum
      omega

/-- Relation between consecutive chunk sentence-lists: the later one starts
with the overlap window of the earlier one followed by the sentence that
triggered the boundary; if anything further was appended, the later chunk
fits the budget. -/
def chunkRel (maxTokens overlapTokens : Nat) (l1 l2 : List String) : Prop :=
  ∃ sent ext, l2 = overlapWindow l1 overlapTokens ++ sent :: ext ∧
    (ext ≠ [] → sumEst l2 ≤ maxTokens)

theorem chunkLists_first (M O : Nat) (sents : List String) :
    ∀ cur, cur ≠ [] →
      ∃ ext rest, chunkLists M O sents cur = (cur ++ ext) :: rest ∧
        (ext ≠ [] → sumEst (cur ++ ext) ≤ M) := by
  induction sents with
  | nil =>
    intro cur hcur
    refine ⟨[], [], ?_, fun h => absurd rfl h⟩
    rw [chunkLists, if_neg (by simpa using hcur), List.append_nil]
  | cons sent rest ih =>
    intro cur hcur
    by_cases hb : ¬cur.isEmpty ∧ M < sumEst cur + estimate_tokens sent
    · refine ⟨[], chunkLists M O rest (overlapWindow cur O ++ [sent]), ?_, fun h => absurd rfl h⟩
      rw [chunkLists, if_pos hb, List.append_nil]
    · obtain ⟨ext', rest', heq, hcond⟩ := ih (cur ++ [sent]) (by simp)
      refine ⟨[sent] ++ ext', rest', ?_, ?_⟩
      · rw [chunkLists, if_neg hb, heq, List.append_assoc]
      · intro _
        rcases eq_or_ne ext' [] with hext | hext
        · rw [hext, List.append_nil, sumEst_append, sumEst_cons, sumEst_nil]
          push_neg at hb
          have := hb (by simpa using hcur)
          omega
        · rw [← List.append_assoc]
          exact hcond hext

theorem chunkLists_chain (M O : Nat) (sents : List String) :
    ∀ cur, List.Chain' (chunkRel M O) (chunkLists M O sents cur) := by
  induction sents with
  | nil =>
    intro cur
    rw [chunkLists]
    split
    · exact List.chain'_nil
    · exact List.chain'_singleton _
  | cons sent rest ih =>
    intro cur
    by_cases hb : ¬cur.isEmpty ∧ M < sumEst cur + estimate_tokens sent
    · rw [chunkLists, if_pos hb]
      obtain ⟨ext, rest', heq, hcond⟩ :=
        chunkLists_first M O rest (overlapWindow cur O ++ [sent]) (by simp)
      refine List.chain'_cons'.mpr ⟨?_, ih _⟩
      intro y hy
      rw [heq] at hy
      simp only [List.head?_cons, Option.mem_def, Option.some.injEq] at hy
      refine ⟨sent, ext, ?_, ?_⟩
      · rw [← hy, List.append_assoc, List.singleton_append]
      · intro hne
        rw [← hy]
        exact hcond hne
    · rw [chunkLists, if_neg hb]
      exact ih _

theorem chunkLists_head (M O : Nat) (sents : List String) :
    chunkLists M O sents [] = [] ∨
      ∃ c rest, chunkLists M O sents [] = c :: rest ∧ (c.length = 1 ∨ sumEst c ≤ M) := by
  cases sents with
  | nil => left; rw [chunkLists]; simp
  | cons sent rest =>
    right
    rw [chunkLists, if_neg (by simp)]
    obtain ⟨ext, rest', heq, hcond⟩ := chunkLists_first M O rest [sent] (by simp)
    refine ⟨[sent] ++ ext, rest', heq, ?_⟩
    rcases eq_or_ne ext [] with hext | hext
    · left
      rw [hext]
      rfl
    · right
      exact hcond hext

theorem chunkGo_eq_zipWith (M O : Nat) (sents : List String) :
    ∀ cur ct idx, ct = sumEst cur →
      chunkGo M O sents cur ct idx =
        List.zipWith mkChunk (chunkLists M O sents cur)
          (List.range' idx (chunkLists M O sents cur).length) := by
  induction sents with
  | nil =>
    intro cur ct idx hct
    rw [chunkGo, chunkLists]
    split
    · rfl
    · rfl
  | cons sent rest ih =>
    intro cur ct idx hct
    by_cases hb : ¬cur.isEmpty ∧ M < sumEst cur + estimate_tokens sent
    · rw [chunkGo, chunkLists, if_pos (by rw [hct]; exact hb), if_pos hb]
      rw [ih _ _ (idx + 1) rfl]
      rw [List.length_cons, List.range'_succ, List.zipWith_cons_cons]
    · rw [chunkGo, chunkLists, if_neg (by rw [hct]; exact hb), if_neg hb]
      exact ih _ _ idx (by rw [hct, sumEst_append, sumEst_cons, sumEst_nil]; omega)

/-- C2 counterexample: with `max_tokens = 6` the two three-word sentences
`"a b c"`, `"d e f"` are accumulated into one chunk (their per-sentence
estimates sum to 6), but the chunk's recorded token count — the estimator
applied to the joined content — is `⌊6 * 1.3⌋ = 7 > 6`, and the chunk is
not a single oversized sentence, so its token count does not equal any
single sentence's own estimate.  This falsifies the claimed budget bound on
the produced chunk's estimated token count. -/
theorem C2_tokens_counterexample :
    (chunk_sentences ["a b c", "d e f"] 6 0).map Chunk.tokens = [7] ∧
    (chunk_sentences ["a b c", "d e f"] 6 0).map Chunk.content = ["a b c d e f"] ∧
    chunkSentenceLists ["a b c", "d e f"] 6 0 = [["a b c", "d e f"]] ∧
    estimate_tokens "a b c" = 3 ∧ estimate_tokens "d e f" = 3 ∧ ¬(7 ≤ 6) :=
  ⟨by decide, by decide, by decide, by decide, by decide, by decide⟩

/-- C2 (amended): in every chunking run, each produced chunk either has
per-sentence estimated-token sum at most `max_tokens`, or is an unmodified
buffer seed — the single first sentence (necessarily oversized on its own),
or the overlap window of the previous chunk followed by exactly one
sentence.  No sentence is ever split or truncated: each chunk is a list of
input sentences, and the real `_chunk_sentences` output is exactly these
sentence lists joined, stripped and re-estimated (so the recorded `tokens`
field is the estimate of the joined content, which can exceed the
per-sentence sum and hence `max_tokens`, as the counterexample shows). -/
theorem C2_chunk_budget (sents : List String) (M O : Nat) :
    chunk_sentences sents M O =
      List.zipWith mkChunk (chunkSentenceLists sents M O)
        (List.range' 0 (chunkSentenceLists sents M O).length) ∧
    ∀ i (h : i < (chunkSentenceLists sents M O).length),
      sumEst ((chunkSentenceLists sents M O).get ⟨i, h⟩) ≤ M ∨
      (i = 0 ∧ ((chunkSentenceLists sents M O).get ⟨i, h⟩).length = 1) ∨
      (0 < i ∧ ∃ (h' : i - 1 < (chunkSentenceLists sents M O).length) (sent : String),
        (chunkSentenceLists sents M O).get ⟨i, h⟩ =
          overlapWindow ((chunkSentenceLists sents M O).get ⟨i - 1, h'⟩) O ++ [sent]) := by
  constructor
  · exact chunkGo_eq_zipWith M O sents [] 0 0 rfl
  · intro i h
    cases i with
    | zero =>
      rcases chunkLists_head M O sents with h0 | ⟨c, rest, heq, hc⟩
      · exfalso
        rw [chunkSentenceLists] at h
        rw [h0] at h
        simp at h
      · have hget : (chunkSentenceLists sents M O).get ⟨0, h⟩ = c := by
          have heq2 : chunkSentenceLists sents M O = c :: rest := heq
          rw [List.get_of_eq heq2 ⟨0, h⟩]
          rfl
        rcases hc with hlen | hsum
        · right; left; exact ⟨rfl, by rw [hget]; exact hlen⟩
        · left; rw [hget]; exact hsum
    | succ j =>
      have hchain := chunkLists_chain M O sents []
      have hrel := List.chain'_iff_get.mp hchain j (by
        rw [chunkSentenceLists] at h
        omega)
      obtain ⟨sent, ext, heq, hcond⟩ := hrel
      rcases eq_or_ne ext [] with hext | hext
      · right; right
        refine ⟨Nat.succ_pos j, by omega, sent, ?_⟩
        rw [hext] at heq
        exact heq
      · left
        exact hcond hext

/-- C2 witness: the amended budget statement evaluated on a concrete run. -/
theorem C2_chunk_budget_witness :
    (0 : Nat) < (chunkSentenceLists ["a b c", "d e f"] 6 0).length ∧
    (sumEst ((chunkSentenceLists ["a b c", "d e f"] 6 0).get ⟨0, by decide⟩) ≤ 6 ∨
     ((0 : Nat) = 0 ∧ ((chunkSentenceLists ["a b c", "d e f"] 6 0).get ⟨0, by decide⟩).length = 1) ∨
     ((0 : Nat) < 0 ∧ ∃ (h' : 0 - 1 < (chunkSentenceLists ["a b c", "d e f"] 6 0).length)
        (sent : String),
        (chunkSentenceLists ["a b c", "d e f"] 6 0).get ⟨0, by decide⟩ =
          overlapWindow ((chunkSentenceLists ["a b c", "d e f"] 6 0).get ⟨0 - 1, h'⟩) 0 ++ [sent])) :=
  ⟨by decide, (C2_chunk_budget ["a b c", "d e f"] 6 0).2 0 (by decide)⟩

/-- C3: overlap contract.  For `overlap_tokens = O > 0` and any two
consecutive chunks of one run, the later chunk is a non-trivial extension
of a block `w` that is a trailing suffix of the earlier chunk; `w` is all
of the earlier chunk when its total estimate is below `O`, and otherwise
`w` has cumulative estimate at least `O` and is the shortest suffix of the
earlier chunk achieving that. -/
theorem C3_overlap_contract (sents : List String) (M O : Nat) (hO : 0 < O) (i : Nat)
    (h1 : i < (chunkSentenceLists sents M O).length)
    (h2 : i + 1 < (chunkSentenceLists sents M O).length) :
    ∃ w rest, rest ≠ [] ∧
      (chunkSentenceLists sents M O).get ⟨i + 1, h2⟩ = w ++ rest ∧
      w <:+ (chunkSentenceLists sents M O).get ⟨i, h1⟩ ∧
      (sumEst ((chunkSentenceLists sents M O).get ⟨i, h1⟩) < O →
        w = (chunkSentenceLists sents M O).get ⟨i, h1⟩) ∧
      (O ≤ sumEst ((chunkSentenceLists sents M O).get ⟨i, h1⟩) →
        O ≤ sumEst w ∧
        ∀ w', w' <:+ (chunkSentenceLists sents M O).get ⟨i, h1⟩ → O ≤ sumEst w' →
          w.length ≤ w'.length) := by
  have hchain := chunkLists_chain M O sents []
  have hrel := List.chain'_iff_get.mp hchain i (by
    rw [chunkSentenceLists] at h2
    omega)
  obtain ⟨sent, ext, heq, _⟩ := hrel
  obtain ⟨hsuf, _, hlt, hge⟩ :=
    overlapWindow_spec ((chunkSentenceLists sents M O).get ⟨i, h1⟩) O hO
  exact ⟨overlapWindow ((chunkSentenceLists sents M O).get ⟨i, h1⟩) O, sent :: ext,
    List.cons_ne_nil _ _, heq, hsuf, hlt, hge⟩

/-- C3 witness: the overlap contract evaluated on a concrete two-chunk
run (`M = 10`, `O = 3`). -/
theorem C3_overlap_contract_witness :
    (0 : Nat) < 3 ∧
    (0 : Nat) < (chunkSentenceLists ["a b c d", "e f g h", "i j k l"] 10 3).length ∧
    (0 + 1 : Nat) < (chunkSentenceLists ["a b c d", "e f g h", "i j k l"] 10 3).length ∧
    (∃ w rest, rest ≠ [] ∧
      (chunkSentenceLists ["a b c d", "e f g h", "i j k l"] 10 3).get ⟨0 + 1, by decide⟩ =
        w ++ rest ∧
      w <:+ (chunkSentenceLists ["a b c d", "e f g h", "i j k l"] 10 3).get ⟨0, by decide⟩ ∧
      (sumEst ((chunkSentenceLists ["a b c d", "e f g h", "i j k l"] 10 3).get ⟨0, by decide⟩) < 3 →
        w = (chunkSentenceLists ["a b c d", "e f g h", "i j k l"] 10 3).get ⟨0, by decide⟩) ∧
      (3 ≤ sumEst ((chunkSentenceLists ["a b c d", "e f g h", "i j k l"] 10 3).get ⟨0, by decide⟩) →
        3 ≤ sumEst w ∧
        ∀ w', w' <:+ (chunkSentenceLists ["a b c d", "e f g h", "i j k l"] 10 3).get ⟨0, by decide⟩ →
          3 ≤ sumEst w' → w.length ≤ w'.length)) :=
  ⟨by decide, by decide, by decide,
    C3_overlap_contract ["a b c d", "e f g h", "i j k l"] 10 3 (by decide) 0 (by decide)
      (by decide)⟩

/-! ## C8 — normalizer idempotence

Support: each normalizer pass is the identity on strings without the
characters it targets; the space-collapse pass produces no two adjacent
spaces/tabs and is the identity on such strings; stripping is idempotent. -/

theorem dehyphGo_nil (fuel : Nat) : dehyphGo fuel [] = [] := by
  cases fuel <;> rfl

theorem convertCRLF_id {cs : List Char} (h : '\r' ∉ cs) : convertCRLF cs = cs := by
  induction cs with
  | nil => rfl
  | cons c cs ih =>
    have hc : ¬c = '\r' := fun hh => h (hh ▸ List.mem_cons_self _ _)
    cases cs with
    | nil => rw [convertCRLF, if_neg hc]
    | cons c2 cs2 =>
      rw [convertCRLF, if_neg hc, ih fun hm => h (List.mem_cons_of_mem _ hm)]

theorem dehyphGo_id {cs : List Char} (h : '\n' ∉ cs) (fuel : Nat) : dehyphGo fuel cs = cs := by
  induction cs generalizing fuel with
  | nil => exact dehyphGo_nil fuel
  | cons c cs ih =>
    cases fuel with
    | zero => rfl
    | succ fuel =>
      have htail : '\n' ∉ cs := fun hm => h (List.mem_cons_of_mem _ hm)
      rw [dehyphGo.eq_def]
      dsimp only
      by_cases hw : isWordChar c = true
      · rw [if_pos hw]
        cases cs with
        | nil =>
          dsimp only
          rw [dehyphGo_nil]
        | cons c2 rest =>
          dsimp only
          by_cases hc2 : c2 = '-'
          · rw [if_pos hc2]
            have hcont : (rest.takeWhile pyIsSpace).contains '\n' = false := by
              rw [Bool.eq_false_iff]
              intro hcon
              have hmem : '\n' ∈ rest.takeWhile pyIsSpace := by
                obtain ⟨a, ha, hbeq⟩ := List.contains_iff_exists_mem_beq.mp hcon
                have : '\n' = a := eq_of_beq hbeq
                rwa [this]
              exact htail (List.mem_cons_of_mem _ ((List.takeWhile_sublist _).mem hmem))
            rw [hcont]
            simp only [Bool.false_eq_true, if_false]
            rw [ih htail fuel]
          · rw [if_neg hc2, ih htail fuel]
      · rw [if_neg hw, ih htail fuel]

theorem singleNlGo_id {cs : List Char} (h : '\n' ∉ cs) (prev : Char) :
    singleNlGo prev cs = cs := by
  induction cs generalizing prev with
  | nil => rfl
  | cons c cs ih =>
    have hc : (c == '\n') = false := by
      rw [beq_eq_false_iff_ne]
      exact fun hh => h (hh ▸ List.mem_cons_self _ _)
    rw [singleNlGo, hc]
    simp only [Bool.false_and, Bool.false_eq_true, if_false]
    rw [ih fun hm => h (List.mem_cons_of_mem _ hm)]

theorem collapseNlGo_id {cs : List Char} (h : '\n' ∉ cs) (b : Bool) :
    collapseNlGo b cs = cs := by
  induction cs generalizing b with
  | nil => rfl
  | cons c cs ih =>
    have hc : (c == '\n') = false := by
      rw [beq_eq_false_iff_ne]
      exact fun hh => h (hh ▸ List.mem_cons_self _ _)
    rw [collapseNlGo.eq_def]
    dsimp only
    rw [hc]
    simp only [Bool.false_eq_true, if_false]
    rw [ih fun hm => h (List.mem_cons_of_mem _ hm)]

theorem collapseGo_mem {y : Char} {b : Bool} {cs : List Char}
    (h : y ∈ collapseGo b cs) : y ∈ cs ∨ y = ' ' := by
  induction cs generalizing b with
  | nil => simp [collapseGo] at h
  | cons c cs ih =>
    rw [collapseGo.eq_def] at h
    dsimp only at h
    by_cases hst : isST c = true
    · rw [if_pos hst] at h
      by_cases hb : b = true
      · rw [hb] at h
        simp only [if_pos] at h
        rcases ih h with hm | hm
        · exact Or.inl (List.mem_cons_of_mem _ hm)
        · exact Or.inr hm
      · rw [Bool.not_eq_true] at hb
        rw [hb] at h
        simp only [Bool.false_eq_true, if_false] at h
        cases cs with
        | nil =>
          rcases List.mem_singleton.mp h with rfl
          exact Or.inl (List.mem_cons_self _ _)
        | cons c2 rest =>
          dsimp only at h
          by_cases hst2 : isST c2 = true
          · rw [if_pos hst2] at h
            rcases List.mem_cons.mp h with rfl | hm
            · exact Or.inr rfl
            · rcases ih hm with hm' | hm'
              · exact Or.inl (List.mem_cons_of_mem _ hm')
              · exact Or.inr hm'
          · rw [if_neg hst2] at h
            rcases List.mem_cons.mp h with rfl | hm
            · exact Or.inl (List.mem_cons_self _ _)
            · rcases ih hm with hm' | hm'
              · exact Or.inl (List.mem_cons_of_mem _ hm')
              · exact Or.inr hm'
    · rw [if_neg hst] at h
      rcases List.mem_cons.mp h with rfl | hm
      · exact Or.inl (List.mem_cons_self _ _)
      · rcases ih hm with hm' | hm'
        · exact Or.inl (List.mem_cons_of_mem _ hm')
        · exact Or.inr hm'

theorem collapseGo_head_true (cs : List Char) :
    ∀ y ∈ (collapseGo true cs).head?, isST y = false := by
  induction cs with
  | nil => intro y hy; simp [collapseGo] at hy
  | cons c cs ih =>
    intro y hy
    rw [collapseGo.eq_def] at hy
    dsimp only at hy
    by_cases hst : isST c = true
    · rw [if_pos hst] at hy
      simp only [if_pos] at hy
      exact ih y hy
    · rw [if_neg hst] at hy
      simp only [List.head?_cons, Option.mem_def, Option.some.injEq] at hy
      rw [← hy]
      simpa using hst

theorem collapseGo_chain (cs : List Char) :
    ∀ b, noTwoST (collapseGo b cs) := by
  induction cs with
  | nil => intro b; rw [collapseGo.eq_def]; exact List.chain'_nil
  | cons c cs ih =>
    intro b
    rw [collapseGo.eq_def]
    dsimp only
    by_cases hst : isST c = true
    · rw [if_pos hst]
      by_cases hb : b = true
      · rw [hb]
        simp only [if_pos]
        exact ih true
      · rw [Bool.not_eq_true] at hb
        rw [hb]
        simp only [Bool.false_eq_true, if_false]
        cases cs with
        | nil => exact List.chain'_singleton _
        | cons c2 rest =>
          dsimp only
          by_cases hst2 : isST c2 = true
          · rw [if_pos hst2]
            refine List.chain'_cons'.mpr ⟨?_, ih true⟩
            intro y hy
            have := collapseGo_head_true (c2 :: rest) y hy
            intro ⟨_, h2⟩
            rw [this] at h2
            cases h2
          · rw [if_neg hst2]
            refine List.chain'_cons'.mpr ⟨?_, ih false⟩
            intro y hy
            rw [collapseGo.eq_def] at hy
            dsimp only at hy
            rw [if_neg hst2] at hy
            simp only [List.head?_cons, Option.mem_def, Option.some.injEq] at hy
            intro ⟨_, h2⟩
            rw [hy] at hst2
            exact hst2 h2
    · rw [if_neg hst]
      refine List.chain'_cons'.mpr ⟨?_, ih false⟩
      intro y hy
      intro ⟨h1, _⟩
      exact (by simpa using hst : ¬isST c = true) h1

theorem collapseGo_id {cs : List Char} (h : noTwoST cs) : collapseGo false cs = cs := by
  induction cs with
  | nil => rfl
  | cons c cs ih =>
    rw [collapseGo.eq_def]
    dsimp only
    by_cases hst : isST c = true
    · rw [if_pos hst]
      simp only [Bool.false_eq_true, if_false]
      cases cs with
      | nil => rfl
      | cons c2 rest =>
        dsimp only
        have hnot2 : ¬isST c2 = true := by
          have := List.chain'_cons'.mp h
          have h2 := this.1 c2 (by simp)
          intro hcon
          exact h2 ⟨hst, hcon⟩
        rw [if_neg hnot2, ih (List.Chain'.tail h)]
    · rw [if_neg hst, ih (List.Chain'.tail h)]

theorem dropWhile_head_not (p : Char → Bool) (cs : List Char) :
    ∀ y ∈ (cs.dropWhile p).head?, p y = false := by
  induction cs with
  | nil => intro y hy; simp at hy
  | cons c cs ih =>
    intro y hy
    rw [List.dropWhile_cons] at hy
    by_cases hc : p c = true
    · rw [if_pos hc] at hy
      exact ih y hy
    · rw [if_neg hc] at hy
      simp only [List.head?_cons, Option.mem_def, Option.some.injEq] at hy
      rw [← hy]
      simpa using hc

theorem dropWhile_eq_self_of_head (p : Char → Bool) (cs : List Char)
    (h : ∀ y ∈ cs.head?, p y = false) : cs.dropWhile p = cs := by
  cases cs with
  | nil => rfl
  | cons c cs =>
    rw [List.dropWhile_cons, if_neg]
    rw [h c (by simp)]
    simp

theorem trimBy_mem {p : Char → Bool} {y : Char} {cs : List Char}
    (h : y ∈ trimBy p cs) : y ∈ cs := by
  rw [trimBy, List.mem_reverse] at h
  have h2 := (List.dropWhile_sublist p).mem h
  rw [List.mem_reverse] at h2
  exact (List.dropWhile_sublist p).mem h2

theorem trimBy_noTwoST {p : Char → Bool} {cs : List Char} (h : noTwoST cs) :
    noTwoST (trimBy p cs) := by
  have hsymm : ∀ (l : List Char), noTwoST l → noTwoST l.reverse := by
    intro l hl
    rw [noTwoST, List.chain'_reverse]
    exact hl.imp fun a b hab => fun ⟨h1, h2⟩ => hab ⟨h2, h1⟩
  have h1 : noTwoST (cs.dropWhile p) := h.suffix (List.dropWhile_suffix p)
  have h2 : noTwoST ((cs.dropWhile p).reverse) := hsymm _ h1
  have h3 : noTwoST ((cs.dropWhile p).reverse.dropWhile p) := h2.suffix (List.dropWhile_suffix p)
  exact hsymm _ h3

theorem trimBy_idem (p : Char → Bool) (cs : List Char) :
    trimBy p (trimBy p cs) = trimBy p cs := by
  rcases eq_or_ne ((cs.dropWhile p).reverse.dropWhile p) [] with hB | hB
  · have ht : trimBy p cs = [] := by rw [trimBy, hB]; rfl
    rw [ht]
    rfl
  · have hheadB : ∀ y ∈ ((cs.dropWhile p).reverse.dropWhile p).head?, p y = false :=
      dropWhile_head_not p _
    have hheadBrev : ∀ y ∈ ((cs.dropWhile p).reverse.dropWhile p).reverse.head?, p y = false := by
      intro y hy
      rw [List.head?_reverse] at hy
      obtain ⟨u, hu⟩ := List.dropWhile_suffix (l := (cs.dropWhile p).reverse) p
      have hlast : ((cs.dropWhile p).reverse).getLast? =
          ((cs.dropWhile p).reverse.dropWhile p).getLast? := by
        conv_lhs => rw [← hu]
        exact List.getLast?_append_of_ne_nil _ hB
      rw [← hlast, List.getLast?_reverse] at hy
      exact dropWhile_head_not p cs y hy
    have step1 : (trimBy p cs).dropWhile p = trimBy p cs :=
      dropWhile_eq_self_of_head p _ (by rw [trimBy]; exact hheadBrev)
    rw [trimBy, step1]
    rw [trimBy, List.reverse_reverse]
    rw [dropWhile_eq_self_of_head p _ hheadB]

/-- C8 counterexample: the normalizer is not idempotent.  On
`"a-\nb-\n\nc"` the de-hyphenation pass merges the first hyphenated break
and resumes scanning after it, leaving the second (overlapping) candidate
untouched; a second normalize run then merges it, so
`normalize(normalize(s)) = "abc" ≠ "ab-\n\nc" = normalize(s)`. -/
theorem C8_hyphen_chain_counterexample :
    normalize_page_text "a-\nb-\n\nc" = "ab-\n\nc" ∧
    normalize_page_text (normalize_page_text "a-\nb-\n\nc") = "abc" ∧
    normalize_page_text (normalize_page_text "a-\nb-\n\nc") ≠
      normalize_page_text "a-\nb-\n\nc" :=
  ⟨by decide, by decide, by decide⟩

/-- C8 (amended): the normalizer is idempotent on every input containing no
newline and no carriage return (overlapping hyphen–line-break merges, which
need newlines, are the only source of non-idempotence exhibited by the
counterexample; on newline-free input a second application changes
nothing). -/
theorem C8_normalizer_idempotent_single_line (s : String)
    (hn : '\n' ∉ s.data) (hr : '\r' ∉ s.data) :
    normalize_page_text (normalize_page_text s) = normalize_page_text s := by
  by_cases hs : s = ""
  · rw [hs]
    rfl
  · have hNX : '\n' ∉ collapseST s.data := by
      intro hm
      rw [collapseST] at hm
      rcases collapseGo_mem hm with h | h
      · exact hn h
      · cases h
    have hstep : normalize_page_text s = ⟨trimBy pyIsSpace (collapseST s.data)⟩ := by
      rw [normalize_page_text, if_neg hs, convertCRLF_id hr, dehyphenate, dehyphGo_id hn,
        singleNl, singleNlGo_id hn, collapseNl, collapseNlGo_id hNX]
    have hN : '\n' ∉ trimBy pyIsSpace (collapseST s.data) := by
      intro hm
      exact hNX (trimBy_mem hm)
    have hR : '\r' ∉ trimBy pyIsSpace (collapseST s.data) := by
      intro hm
      have hm2 := trimBy_mem hm
      rw [collapseST] at hm2
      rcases collapseGo_mem hm2 with h | h
      · exact hr h
      · cases h
    have hchain : noTwoST (trimBy pyIsSpace (collapseST s.data)) := by
      refine trimBy_noTwoST ?_
      rw [collapseST]
      exact collapseGo_chain s.data false
    rw [hstep]
    by_cases ht1 : (⟨trimBy pyIsSpace (collapseST s.data)⟩ : String) = ""
    · rw [ht1]
      rfl
    · rw [normalize_page_text, if_neg ht1]
      show (⟨trimBy pyIsSpace
        (collapseNl (collapseST (singleNl (dehyphenate
          (convertCRLF (trimBy pyIsSpace (collapseST s.data)))))))⟩ : String) = _
      rw [convertCRLF_id hR, dehyphenate, dehyphGo_id hN, singleNl, singleNlGo_id hN,
        collapseST, collapseGo_id hchain, collapseNl, collapseNlGo_id hN, trimBy_idem]

/-- C8 witness: a concrete newline-free input is normalized idempotently. -/
theorem C8_normalizer_witness :
    ('\n' ∉ ("a  b" : String).data) ∧ ('\r' ∉ ("a  b" : String).data) ∧
    normalize_page_text (normalize_page_text "a  b") = normalize_page_text "a  b" :=
  ⟨by decide, by decide, C8_normalizer_idempotent_single_line "a  b" (by decide) (by decide)⟩
